import Mathlib

/-!
Verification of the stashdb backlog export engine against its specification.

The definitions below are a shallow embedding of the Python sources:
`extract/classes.py` (cell / row / sheet model), `extract/models.py`
(entry records), `extract/sheets/scene_performers.py` (entry list builder
and reconciliation engine) and `extract/sheets/performers_to_split_up.py`
(fragment name extraction).  Strings are modelled as `List Char`; Python
slice clamping, negative indexing and exceptions are modelled explicitly
(`Except` for code paths that raise).
-/

namespace StashBacklog

/-- Sentinel start marker inserted around struck-through spans
(`'\u0002'` in `extract/classes.py`). -/
def STX : Char := Char.ofNat 2

/-- Sentinel end marker (`'\u0003'` in `extract/classes.py`). -/
def ETX : Char := Char.ofNat 3

/- ---------------------------------------------------------------------
Entry records (`extract/models.py`).

`PerformerEntry` is a `TypedDict` in the source; a key such as
`disambiguation` is present only when the parser sets it, and the parser
only ever sets non-empty values.  We model an absent optional key as
`none` (resp. `[]` for `notes`); runtime dict equality of two entries is
then exactly structural equality of this record.
--------------------------------------------------------------------- -/

structure PerformerEntry where
  id : Option String
  name : String
  appearance : Option String
  disambiguation : Option String := none
  status : Option String := none
  status_url : Option String := none
  notes : List String := []
deriving DecidableEq, Repr

structure PerformerUpdateEntry where
  id : String
  name : String
  appearance : Option String
  old_appearance : Option String
  disambiguation : Option String := none
  status : Option String := none
deriving DecidableEq, Repr

/-- The spec's notion of `ChangeEntry` equality: "(identifier, name,
appearance) match".  Stated from the spec's words, to be compared with
the structural (full-dict) equality the code actually uses. -/
def tripleEqv (a b : PerformerEntry) : Bool :=
  a.id = b.id ∧ a.name = b.name ∧ a.appearance = b.appearance

/- ---------------------------------------------------------------------
`ScenePerformers._get_change_entries` (scene_performers.py, lines
181-197).  The per-cell text parser `_get_change_entry` is abstracted as
the already-computed list of its results (`none` for a skipped cell);
the loop keeps an entry unless an equal entry (Python `entry in results`,
i.e. dict equality) was already kept.
--------------------------------------------------------------------- -/

def getChangeEntries (parsed : List (Option PerformerEntry)) : List PerformerEntry :=
  parsed.foldl (fun results o =>
    match o with
    | none => results
    | some entry =>
      if entry ∈ results then results   -- "Skipping duplicate performer" (log only)
      else results ++ [entry]) []

/- ---------------------------------------------------------------------
`ScenePerformers._find_updates` (scene_performers.py, lines 278-327).

The yielded `(updates, remove, append)` triple returns the mutated
`remove` / `append` lists explicitly.  Python raising `StopIteration`
from `next(...)` in the removal loop is modelled as `.error`.
--------------------------------------------------------------------- -/

def buildUpdates (remove append : List PerformerEntry)
    (updateIds : List (Option String)) : List PerformerUpdateEntry :=
  updateIds.foldl (fun acc pid =>
    match pid with
    | none => acc
    | some p =>
      -- remove[remove_ids.index(pid)] / append[append_ids.index(pid)]:
      -- first entry bearing the id; the id is in both lists by construction,
      -- so the `none` fallbacks are unreachable.
      match remove.find? (fun r => r.id == some p),
            append.find? (fun a => a.id == some p) with
      | some r, some a =>
        if r.name ≠ a.name ∨ r.appearance = a.appearance then
          -- either silently skipped (remove-entry status "edit") or skipped
          -- with an "Unexpected name/ID" warning; both branches only log.
          acc
        else
          acc ++ [{ id := p, name := a.name, appearance := a.appearance,
                    old_appearance := r.appearance,
                    disambiguation := a.disambiguation, status := a.status }]
      | _, _ => acc) []

def removeMatched : List PerformerUpdateEntry → List PerformerEntry →
    List PerformerEntry →
    Except String (List PerformerEntry × List PerformerEntry)
  | [], rem, app => .ok (rem, app)
  | u :: us, rem, app =>
    match rem.find? (fun r => r.id == some u.id),
          app.find? (fun a => a.id == some u.id) with
    | some r, some a => removeMatched us (rem.erase r) (app.erase a)
    | _, _ => .error "StopIteration"

def findUpdates (remove append : List PerformerEntry) :
    Except String (List PerformerUpdateEntry × List PerformerEntry × List PerformerEntry) :=
  let removeIds := remove.map (·.id)
  let appendIds := append.map (·.id)
  let updateIds := appendIds.filter (fun i => removeIds.contains i)
  let updates := buildUpdates remove append updateIds
  match removeMatched updates remove append with
  | .ok (rem, app) => .ok (updates, rem, app)
  | .error e => .error e

/- ----------------------- C1 ----------------------- -/

/-- C1: for `remove = [{id, name, appearance := a1}]` and
`append = [{id, name, appearance := a2}]` with `a1 ≠ a2`, the
reconciliation returns exactly one update entry carrying the append
appearance and the remove appearance as `old_appearance`, and both
input lists end up empty. -/
theorem C1_find_updates_single_pair (i n : String) (a1 a2 : String) (h : a1 ≠ a2) :
    findUpdates [{ id := some i, name := n, appearance := some a1 }]
                [{ id := some i, name := n, appearance := some a2 }]
      = .ok ([{ id := i, name := n, appearance := some a2,
                old_appearance := some a1 }], [], []) := by
  have hne : ¬ (n ≠ n ∨ (some a1 : Option String) = some a2) := by
    simp [h]
  simp [findUpdates, buildUpdates, removeMatched, hne, h, List.erase_cons]

theorem C1_witness :
    findUpdates [{ id := some "A", name := "X", appearance := some "a1" }]
                [{ id := some "A", name := "X", appearance := some "a2" }]
      = .ok ([{ id := "A", name := "X", appearance := some "a2",
                old_appearance := some "a1" }], [], []) :=
  C1_find_updates_single_pair "A" "X" "a1" "a2" (by decide)

/- ----------------------- C7 ----------------------- -/

theorem buildUpdates_all_none (remove append : List PerformerEntry) :
    ∀ (ids : List (Option String)), (∀ x ∈ ids, x = none) →
      buildUpdates remove append ids = [] := by
  intro ids h
  induction ids with
  | nil => rfl
  | cons hd tl ih =>
    have hhd : hd = none := h hd (by simp)
    subst hhd
    have := ih (fun x hx => h x (by simp [hx]))
    simpa [buildUpdates] using this

/-- C7: if `remove` and `append` share no non-null identifier, the
reconciliation yields no update entries and returns both input lists
with their membership unchanged. -/
theorem C7_no_shared_id_frame (remove append : List PerformerEntry)
    (h : ∀ x, x ∈ remove.map (·.id) → x ∈ append.map (·.id) → x = none) :
    findUpdates remove append = .ok ([], remove, append) := by
  have hids : ∀ x ∈ (append.map (·.id)).filter
      (fun i => (remove.map (·.id)).contains i), x = none := by
    intro x hx
    rw [List.mem_filter] at hx
    exact h x (by simpa using hx.2) hx.1
  have hb := buildUpdates_all_none remove append _ hids
  simp only [findUpdates]
  rw [hb]
  simp [removeMatched]

theorem C7_witness :
    findUpdates [{ id := some "A", name := "X", appearance := some "a" }]
                [{ id := some "B", name := "Y", appearance := none }]
      = .ok ([], [{ id := some "A", name := "X", appearance := some "a" }],
             [{ id := some "B", name := "Y", appearance := none }]) :=
  C7_no_shared_id_frame _ _ (by decide)

/- ----------------------- C6 ----------------------- -/

/-- C6: the code's removal loop raises an uncaught `StopIteration` when the
append list holds two distinct entries bearing the same identifier as one
remove entry: the duplicated shared id produces two identical update
entries, and the second removal pass finds no remaining entry to remove.
This exception escapes `_find_updates` and aborts `_parse`, contradicting
the claim that no row-level failure propagates past the row boundary. -/
theorem C6_duplicate_id_raises :
    findUpdates
      [{ id := some "A", name := "X", appearance := some "a1" }]
      [{ id := some "A", name := "X", appearance := some "a2" },
       { id := some "A", name := "Y", appearance := some "a3" }]
      = .error "StopIteration" := by
  rfl

/- ----------------------- C2 ----------------------- -/

/-- C2 counterexample: two entries agreeing on (id, name, appearance) but
differing in status are spec-equal (`tripleEqv`) yet not equal for the
code (dict equality), and the entry-list builder keeps both instead of
dropping the second as a duplicate. -/
theorem C2_counterexample :
    tripleEqv
        { id := some "A", name := "X", appearance := some "a" }
        { id := some "A", name := "X", appearance := some "a", status := some "c" }
      = true
    ∧ ({ id := some "A", name := "X", appearance := some "a" } : PerformerEntry)
      ≠ { id := some "A", name := "X", appearance := some "a", status := some "c" }
    ∧ getChangeEntries
        [some { id := some "A", name := "X", appearance := some "a" },
         some { id := some "A", name := "X", appearance := some "a", status := some "c" }]
      = [{ id := some "A", name := "X", appearance := some "a" },
         { id := some "A", name := "X", appearance := some "a", status := some "c" }] := by
  refine ⟨by decide, by decide, by decide⟩

theorem getChangeEntries_invariant (parsed : List (Option PerformerEntry)) :
    ∀ acc : List PerformerEntry, acc.Nodup →
      (parsed.foldl (fun results o =>
        match o with
        | none => results
        | some entry => if entry ∈ results then results else results ++ [entry]) acc).Nodup
      ∧ ∀ e, e ∈ (parsed.foldl (fun results o =>
        match o with
        | none => results
        | some entry => if entry ∈ results then results else results ++ [entry]) acc)
          ↔ e ∈ acc ∨ some e ∈ parsed := by
  induction parsed with
  | nil => intro acc hacc; exact ⟨hacc, by simp⟩
  | cons hd tl ih =>
    intro acc hacc
    cases hd with
    | none =>
      have h := ih acc hacc
      refine ⟨h.1, fun e => ?_⟩
      rw [List.foldl_cons]
      constructor
      · intro hm
        rcases (h.2 e).1 hm with h1 | h1
        · exact Or.inl h1
        · exact Or.inr (by simp [h1])
      · intro hm
        rcases hm with h1 | h1
        · exact (h.2 e).2 (Or.inl h1)
        · rcases (List.mem_cons.1 h1) with h2 | h2
          · exact absurd h2 (by simp)
          · exact (h.2 e).2 (Or.inr h2)
    | some entry =>
      by_cases hmem : entry ∈ acc
      · have h := ih acc hacc
        refine ⟨by simpa [hmem] using h.1, fun e => ?_⟩
        rw [List.foldl_cons]
        simp only [hmem, if_true]
        constructor
        · intro hm
          rcases (h.2 e).1 hm with h1 | h1
          · exact Or.inl h1
          · exact Or.inr (by simp [h1])
        · intro hm
          rcases hm with h1 | h1
          · exact (h.2 e).2 (Or.inl h1)
          · rcases (List.mem_cons.1 h1) with h2 | h2
            · have he : e = entry := by simpa using h2
              exact (h.2 e).2 (Or.inl (he ▸ hmem))
            · exact (h.2 e).2 (Or.inr h2)
      · have hacc2 : (acc ++ [entry]).Nodup := by
          simp [List.nodup_append, hacc, hmem]
        have h := ih (acc ++ [entry]) hacc2
        refine ⟨by simpa [hmem] using h.1, fun e => ?_⟩
        rw [List.foldl_cons]
        simp only [hmem, if_false]
        constructor
        · intro hm
          rcases (h.2 e).1 hm with h1 | h1
          · rcases List.mem_append.1 h1 with h2 | h2
            · exact Or.inl h2
            · exact Or.inr (by simp [List.mem_singleton.1 h2])
          · exact Or.inr (by simp [h1])
        · intro hm
          rcases hm with h1 | h1
          · exact (h.2 e).2 (Or.inl (List.mem_append.2 (Or.inl h1)))
          · rcases (List.mem_cons.1 h1) with h2 | h2
            · have he : e = entry := by simpa using h2
              exact (h.2 e).2 (Or.inl (List.mem_append.2 (Or.inr (by simp [he]))))
            · exact (h.2 e).2 (Or.inr h2)

/-- C2 amended: runtime equality of two entries is equality of all of
their fields (full dict equality), and the entry-list builder drops a
later entry exactly when an entry equal on all fields was already kept:
the built list is duplicate-free and holds exactly the parsed entries. -/
theorem C2_full_equality_dedup :
    (∀ a b : PerformerEntry,
        a = b ↔ a.id = b.id ∧ a.name = b.name ∧ a.appearance = b.appearance
          ∧ a.disambiguation = b.disambiguation ∧ a.status = b.status
          ∧ a.status_url = b.status_url ∧ a.notes = b.notes)
    ∧ ∀ parsed : List (Option PerformerEntry),
        (getChangeEntries parsed).Nodup
        ∧ ∀ e, e ∈ getChangeEntries parsed ↔ some e ∈ parsed := by
  constructor
  · intro a b
    constructor
    · intro h; subst h; exact ⟨rfl, rfl, rfl, rfl, rfl, rfl, rfl⟩
    · rintro ⟨h1, h2, h3, h4, h5, h6, h7⟩
      cases a; cases b; simp_all
  · intro parsed
    have h := getChangeEntries_invariant parsed [] List.nodup_nil
    refine ⟨h.1, fun e => ?_⟩
    have := h.2 e
    simpa using this

/- ---------------------------------------------------------------------
`Sheet.get_column_index` / `Sheet.get_all_column_indices`
(`extract/classes.py`, lines 168-182).  A compiled regex is modelled as
its boolean search function on a header string; the literal-substring
branch and the concrete patterns used by `ScenePerformers.__init__` are
given explicit matchers.
--------------------------------------------------------------------- -/

def getColumnIndexP (p : String → Bool) (columns : List String) : Int :=
  match columns.findIdx? p with
  | some idx => (idx : Int)
  | none => -1

def getAllColumnIndicesP (p : String → Bool) (columns : List String) : List Nat :=
  (columns.enum.filter (fun c => p c.2)).map (·.1)

/-- `re.search` of a literal pattern = substring containment. -/
def containsSub (hay pat : List Char) : Bool :=
  (List.range (hay.length + 1)).any (fun i => (hay.drop i).take pat.length = pat)

/-- Search function of the pattern `\(\d+\) <suffix>`: an open paren, one
or more digits, a close paren, then the literal suffix. -/
def numTagAt (suffix : List Char) : List Char → Bool
  | '(' :: rest =>
    let ds := rest.takeWhile Char.isDigit
    ds ≠ [] ∧ (rest.drop ds.length).take (suffix.length + 1) = ')' :: suffix
  | _ => false

def numTagSearch (suffix : List Char) (hay : List Char) : Bool :=
  (List.range (hay.length + 1)).any (fun i => numTagAt suffix (hay.drop i))

/-- The column indices resolved by `ScenePerformers.__init__`
(`scene_performers.py`, lines 31-36).  The constructor stores whatever
the lookups return; there is no check and no raise on a `-1` result. -/
structure ScenePerformersColumns where
  studio : Int
  scene_id : Int
  remove : List Nat
  append : List Nat
  note : Int
  user : Int
deriving DecidableEq, Repr

def initScenePerformersColumns (columns : List String) : ScenePerformersColumns :=
  { studio := getColumnIndexP (fun c => containsSub c.toList "Studio".toList) columns,
    scene_id := getColumnIndexP (fun c => containsSub c.toList "Scene ID".toList) columns,
    remove := getAllColumnIndicesP (fun c => numTagSearch " Remove/Replace".toList c.toList) columns,
    append := getAllColumnIndicesP (fun c => numTagSearch " Add/With".toList c.toList) columns,
    note := getColumnIndexP (fun c => containsSub c.toList "Edit Note".toList) columns,
    user := getColumnIndexP (fun c => containsSub c.toList "Added by".toList) columns }

/- ----------------------- C5 ----------------------- -/

/-- C5: on a sheet whose headers match none of the expected columns, every
lookup returns `-1` (and `get_column_index` cannot raise: it is a total
scan), yet `ScenePerformers.__init__` completes, storing the `-1`
indices — no hard setup failure is raised for the sheet, contrary to the
claim and to the spec's fatal/setup error tier. -/
theorem C5_missing_column_no_failure :
    getColumnIndexP (fun c => containsSub c.toList "Scene ID".toList) ["Foo", "Bar"] = -1
    ∧ initScenePerformersColumns ["Foo", "Bar"]
      = { studio := -1, scene_id := -1, remove := [], append := [],
          note := -1, user := -1 } := by
  constructor
  · rfl
  · decide

/- ---------------------------------------------------------------------
`SheetRow.is_done` (`extract/classes.py`, lines 101-110).  A row's cells
are modelled by their values; `checkboxes[which - 1]` uses Python list
indexing, where a negative index counts from the end and an
out-of-range index raises (`CheckboxNotFound`).
--------------------------------------------------------------------- -/

def pyIndexBool (l : List Bool) (i : Int) : Option Bool :=
  if 0 ≤ i then l.get? i.toNat
  else if i.natAbs ≤ l.length then l.get? (l.length - i.natAbs)
  else none

def checkboxesOf (cellValues : List String) : List Bool :=
  (cellValues.filter (fun v => v = "TRUE" ∨ v = "FALSE")).map
    (fun v => (v = "TRUE" : Bool))

def rowIsDone (cellValues : List String) (which : Int) : Except String Bool :=
  if checkboxesOf cellValues = [] then .error "No checkboxes found!"
  else
    match pyIndexBool (checkboxesOf cellValues) (which - 1) with
    | some b => .ok b
    | none => .error "insufficient checkboxes"

theorem get?_pred_length_eq_getLastD (l : List Bool) (h : l ≠ []) :
    l.get? (l.length - 1) = some (l.getLastD false) := by
  induction l with
  | nil => exact absurd rfl h
  | cons a t ih =>
    cases t with
    | nil => rfl
    | cons b t2 =>
      have := ih (by simp)
      simpa [List.getLastD, Nat.succ_sub_one] using this

/- ----------------------- C10 ----------------------- -/

/-- C10: on a row with at least one checkbox cell, `is_done` called with
`which = 0` does not fail: index `0 - 1 = -1` resolves, per Python
semantics, to the last checkbox, whose value is returned. -/
theorem C10_is_done_zero_returns_last (cellValues : List String)
    (h : checkboxesOf cellValues ≠ []) :
    rowIsDone cellValues 0 = .ok ((checkboxesOf cellValues).getLastD false) := by
  have hlen : 0 < (checkboxesOf cellValues).length := List.length_pos.2 h
  have hidx : pyIndexBool (checkboxesOf cellValues) (0 - 1)
      = some ((checkboxesOf cellValues).getLastD false) := by
    have h1 : ¬ (0 : Int) ≤ 0 - 1 := by omega
    have h2 : ((0 : Int) - 1).natAbs ≤ (checkboxesOf cellValues).length := by
      simpa using hlen
    simp only [pyIndexBool, if_neg h1, if_pos h2]
    simpa using get?_pred_length_eq_getLastD _ h
  simp only [rowIsDone, if_neg h, hidx]

theorem C10_witness :
    rowIsDone ["x", "FALSE", "y", "TRUE"] 0 = .ok true := by
  have := C10_is_done_zero_returns_last ["x", "FALSE", "y", "TRUE"] (by decide)
  simpa using this

/- ---------------------------------------------------------------------
URL host detection (`urlparse(link).netloc` from the Python stdlib,
used by `SheetCell.parse`): an optional `scheme:` prefix (first char a
letter, rest letters/digits/`+`/`-`/`.`), then a netloc exactly when the
remainder starts with `//`; the netloc runs to the next `/`, `?` or `#`
and must be non-empty.
--------------------------------------------------------------------- -/

def isSchemeChar (c : Char) : Bool := c.isAlphanum ∨ c = '+' ∨ c = '-' ∨ c = '.'

def stripScheme (cs : List Char) : List Char :=
  let pre := cs.takeWhile (· ≠ ':')
  if pre.length < cs.length ∧ pre ≠ []
      ∧ (match pre with | c :: _ => c.isAlpha | [] => false) = true
      ∧ pre.all isSchemeChar then
    cs.drop (pre.length + 1)
  else cs

def hasHost (url : String) : Bool :=
  match stripScheme url.toList with
  | '/' :: '/' :: t =>
    match t with
    | c :: _ => ¬ (c = '/' ∨ c = '?' ∨ c = '#')
    | [] => false
  | _ => false

/- ---------------------------------------------------------------------
`SheetCell.parse` (`extract/classes.py`, lines 19-79).

A raw cell carries its formatted value, the cell-level strikethrough
flag (`effectiveFormat.textFormat.strikethrough`, default false), its
text format runs and the cell-level hyperlink.  The note field and its
`~~…~~` marking are not modelled: no claim depends on them.

Python slices clamp; `value[start:end]` with a `None` bound is an open
slice.  `value[idx]` raises on an out-of-range non-negative index — the
embedding returns `none` there, which only matters for runs whose start
offset lies outside the value (all theorems below restrict offsets to be
in range, as the spreadsheet API guarantees).
--------------------------------------------------------------------- -/

structure FormatRun where
  startIndex : Option Nat
  strikethrough : Bool := false
  link : Option String := none
deriving DecidableEq, Repr

structure CellData where
  formattedValue : List Char := []
  strikethrough : Bool := false
  textFormatRuns : List FormatRun := []
  hyperlink : Option String := none
deriving DecidableEq, Repr

structure SheetCellM where
  value : List Char
  links : List String
  done : Bool
deriving DecidableEq, Repr

/-- Python slice `l[s:e]` with optional bounds (non-negative, clamping). -/
def pySliceOO (l : List Char) (s e : Option Nat) : List Char :=
  (l.take (match e with | some e2 => e2 | none => l.length)).drop
    (match s with | some s2 => s2 | none => 0)

/-- Python index `l[i]`, negative indices counting from the end. -/
def pyCharAt (l : List Char) (i : Int) : Option Char :=
  if 0 ≤ i then l.get? i.toNat
  else if i.natAbs ≤ l.length then l.get? (l.length - i.natAbs)
  else none

/-- The run-link collection loop: distinct URLs with a host, first-seen
order (`classes.py`, lines 27-31). -/
def collectRunLinks (runs : List FormatRun) : List String :=
  runs.foldl (fun acc fr =>
    match fr.link with
    | some l => if l ≠ "" ∧ hasHost l ∧ l ∉ acc then acc ++ [l] else acc
    | none => acc) []

/-- One iteration of the strikethrough-marking loop (`classes.py`, lines
46-71).  State: current value, current links, and the (possibly shifted)
start of the previously processed (following) run — the loop walks the
runs in reverse.  The `e - 1` in the end test uses Python indexing
(`value[end-1]`, which would wrap at `end = 0`; that case is unreachable
because it forces an empty span, which the `> 1` guard rejects). -/
def markStep (st : List Char × List String × Option Nat) (fr : FormatRun) :
    List Char × List String × Option Nat :=
  let value := st.1
  let links := st.2.1
  let endO := st.2.2
  let startO := fr.startIndex
  if ¬ fr.strikethrough then (value, links, startO)
  else
    let span := pySliceOO value startO endO
    let startO2 := if span.length > 1 then
        match startO with
        | some s => if value.get? s = some '\n' then some (s + 1) else some s
        | none => none
      else startO
    let endO2 := if span.length > 1 then
        match endO with
        | some e => if pyCharAt value ((e : Int) - 1) = some '\n' then some (e - 1)
                    else some e
        | none => none
      else endO
    let links2 := match fr.link with
      | some l => if l ≠ "" then links.erase l else links
      | none => links
    let value2 := (match startO2 with | some s => value.take s | none => []) ++
      [STX] ++ pySliceOO value startO2 endO2 ++ [ETX] ++
      (match endO2 with | some e => value.drop e | none => [])
    (value2, links2, startO2)

def markLoop (value : List Char) (links : List String) (runs : List FormatRun) :
    List Char × List String × Option Nat :=
  runs.reverse.foldl markStep (value, links, none)

/-- `done` as computed by `SheetCell.parse` (`classes.py`, lines 23, 34-41):
the cell-level flag, upgraded to "every run struck through" when the flag
is unset and runs exist. -/
def computeDone (c : CellData) : Bool :=
  let done := c.strikethrough
  if done = false ∧ c.textFormatRuns ≠ [] then
    c.textFormatRuns.all (·.strikethrough)
  else done

/-- The cell-level hyperlink appended last when it has a host and is not
already collected (`classes.py`, lines 75-77). -/
def hyperAppend (h : Option String) (ls : List String) : List String :=
  match h with
  | some u => if hasHost u ∧ u ∉ ls then ls ++ [u] else ls
  | none => ls

def parseCell (c : CellData) : SheetCellM :=
  let links := collectRunLinks c.textFormatRuns
  let done := computeDone c
  let vl := if done then (c.formattedValue, links)
    else
      let r := markLoop c.formattedValue links c.textFormatRuns
      (r.1, r.2.1)
  { value := vl.1, links := hyperAppend c.hyperlink vl.2, done := done }

/-- A sentinel pair "splits a line break" when a start marker sits
immediately before a newline or an end marker immediately after one. -/
def pairSplitsNewline (l : List Char) : Bool :=
  (l.zip l.tail).any (fun p => (p.1 = STX ∧ p.2 = '\n') ∨ (p.1 = '\n' ∧ p.2 = ETX))

/- ---------------------------------------------------------------------
Closed-form description of the marking loop, proved equal to it below:
processing runs right to left, each run's span runs from its (shifted)
start to the following run's shifted start (the value's end for the last
run); a struck span is wrapped in one STX/ETX pair after moving a single
leading newline out in front of the STX (shifting the start) and — for a
non-final run — a single trailing newline out behind the ETX.
--------------------------------------------------------------------- -/

def markFromStep (orig : List Char) (s : Nat) (struck : Bool) (lastRun : Bool)
    (t : List Char × Nat) : List Char × Nat :=
  let e := t.2
  if struck then
    let spanLen := ((orig.take e).drop s).length
    if spanLen > 1 then
      let sig := if orig.get? s = some '\n' then s + 1 else s
      let e2 := if ¬ lastRun ∧ orig.get? (e - 1) = some '\n' then e - 1 else e
      ([STX] ++ ((orig.take e2).drop sig) ++ [ETX] ++ ((orig.take e).drop e2) ++ t.1,
       sig)
    else
      ([STX] ++ ((orig.take e).drop s) ++ [ETX] ++ t.1, s)
  else (((orig.take e).drop s) ++ t.1, s)

def markFrom (orig : List Char) : List (Nat × Bool) → List Char × Nat
  | [] => ([], orig.length)
  | (s, struck) :: rest => markFromStep orig s struck rest.isEmpty (markFrom orig rest)

def toRun (p : Nat × Bool × Option String) : FormatRun :=
  { startIndex := some p.1, strikethrough := p.2.1, link := p.2.2 }

def toRuns (rs : List (Nat × Bool × Option String)) : List FormatRun :=
  rs.map toRun

def runPairs (rs : List (Nat × Bool × Option String)) : List (Nat × Bool) :=
  rs.map (fun p => (p.1, p.2.1))

/-- The links component of one marking iteration. -/
def linkStep (links : List String) (fr : FormatRun) : List String :=
  if fr.strikethrough then
    match fr.link with
    | some lk => if lk ≠ "" then links.erase lk else links
    | none => links
  else links

def linksAfter (links : List String) (runs : List FormatRun) : List String :=
  runs.reverse.foldl linkStep links

/-- A link is carried by some struck-through run. -/
def struckCarries (runs : List FormatRun) (l : String) : Bool :=
  runs.any (fun r => r.strikethrough ∧ r.link = some l)

/- ----------------------- C4 ----------------------- -/

theorem parseCell_done (c : CellData) : (parseCell c).done = computeDone c := rfl

theorem parseCell_value_of_done (c : CellData) (h : computeDone c = true) :
    (parseCell c).value = c.formattedValue := by
  simp [parseCell, h]

/-- C4: when the cell-level strikethrough flag is off and the cell has
formatting runs, `done` is true exactly when every run is struck through;
in particular a cell made of a single fully-struck run parses to
`done = true` with a value free of sentinel markers (given, as for any
real cell text, that the raw value contains none). -/
theorem C4_done_all_struck (c : CellData) (hflag : c.strikethrough = false)
    (hruns : c.textFormatRuns ≠ []) :
    ((parseCell c).done = true ↔ c.textFormatRuns.all (·.strikethrough) = true)
    ∧ (∀ r : FormatRun, c.textFormatRuns = [r] → r.strikethrough = true →
        STX ∉ c.formattedValue → ETX ∉ c.formattedValue →
        (parseCell c).done = true ∧ STX ∉ (parseCell c).value ∧ ETX ∉ (parseCell c).value) := by
  have hdone : (parseCell c).done = c.textFormatRuns.all (·.strikethrough) := by
    rw [parseCell_done]
    simp [computeDone, hflag, hruns]
  constructor
  · rw [hdone]
  · intro r hr hstruck hSTX hETX
    have hall : c.textFormatRuns.all (·.strikethrough) = true := by
      rw [hr]; simp [hstruck]
    have hd : (parseCell c).done = true := by rw [hdone, hall]
    have hv : (parseCell c).value = c.formattedValue :=
      parseCell_value_of_done c (by rw [← parseCell_done, hd])
    exact ⟨hd, by rw [hv]; exact hSTX, by rw [hv]; exact hETX⟩

/-- A concrete single-run fully-struck cell for the C4 witness. -/
def c4Cell : CellData :=
  { formattedValue := "ab".toList, strikethrough := false,
    textFormatRuns := [{ startIndex := some 0, strikethrough := true }] }

theorem C4_witness :
    ((parseCell c4Cell).done = true
      ↔ c4Cell.textFormatRuns.all (·.strikethrough) = true)
    ∧ (parseCell c4Cell).done = true
    ∧ STX ∉ (parseCell c4Cell).value
    ∧ ETX ∉ (parseCell c4Cell).value := by
  have h := C4_done_all_struck c4Cell rfl (by decide)
  have h2 := h.2 { startIndex := some 0, strikethrough := true } rfl rfl
    (by decide) (by decide)
  exact ⟨h.1, h2.1, h2.2.1, h2.2.2⟩

/- ----------------------- C3 counterexample ----------------------- -/

/-- A cell whose last run is struck through and ends with a newline. -/
def c3Cell : CellData :=
  { formattedValue := "ab\n".toList, strikethrough := false,
    textFormatRuns := toRuns [(0, false, none), (1, true, none)] }

/-- C3 counterexample: a final struck run whose text ends in a newline
keeps that newline inside the sentinel pair (the code only pulls the end
marker back when the run has a following run), so a marker pair does
split a line break even though `done` is false. -/
theorem C3_counterexample :
    (parseCell c3Cell).done = false
    ∧ (parseCell c3Cell).value = ['a', STX, 'b', '\n', ETX]
    ∧ pairSplitsNewline (parseCell c3Cell).value = true := by
  refine ⟨rfl, rfl, rfl⟩

/- ----------------------- C3: loop characterization ----------------------- -/

theorem markFrom_snd_bounds (orig : List Char) (s : Nat) (k : Bool)
    (rest : List (Nat × Bool)) :
    (markFrom orig ((s, k) :: rest)).2 = s ∨ (markFrom orig ((s, k) :: rest)).2 = s + 1 := by
  simp only [markFrom, markFromStep]
  split_ifs <;> simp

theorem markFrom_snd_le (orig : List Char) :
    ∀ ps : List (Nat × Bool), (∀ p ∈ ps, p.1 < orig.length) →
      (markFrom orig ps).2 ≤ orig.length := by
  intro ps h
  cases ps with
  | nil => simp [markFrom]
  | cons p rest =>
    have hs : p.1 < orig.length := h p (by simp)
    rcases markFrom_snd_bounds orig p.1 p.2 rest with h2 | h2 <;> rw [h2] <;> omega

theorem take_append_take_drop (orig : List Char) (s e : Nat) (hse : s ≤ e) :
    orig.take s ++ (orig.take e).drop s = orig.take e := by
  conv_rhs => rw [← List.take_append_drop s (orig.take e)]
  rw [List.take_take, min_eq_left hse]

/-- One marking iteration, acting on the state produced by the suffix of
runs, realizes one step of the closed-form rendering. -/
theorem markStep_eq_markFrom_cons (orig : List Char) (L : List String)
    (s : Nat) (k : Bool) (lk : Option String) (ps : List (Nat × Bool))
    (hse : s < (markFrom orig ps).2)
    (hle : (markFrom orig ps).2 ≤ orig.length) :
    markStep (orig.take (markFrom orig ps).2 ++ (markFrom orig ps).1, L,
        if ps.isEmpty then none else some (markFrom orig ps).2) (toRun (s, k, lk))
      = (orig.take (markFrom orig ((s, k) :: ps)).2 ++ (markFrom orig ((s, k) :: ps)).1,
         linkStep L (toRun (s, k, lk)),
         some (markFrom orig ((s, k) :: ps)).2) := by
  have hout : markFrom orig ((s, k) :: ps)
      = markFromStep orig s k ps.isEmpty (markFrom orig ps) := by
    rw [markFrom]
  rcases hmf : markFrom orig ps with ⟨R0, e⟩
  rw [hmf] at hout hse hle
  rw [hout]
  have hse' : s < e := hse
  have hle' : e ≤ orig.length := hle
  have hlen_take : (orig.take e).length = e := by
    rw [List.length_take]; omega
  have hVtake : ∀ n, n ≤ e → (orig.take e ++ R0).take n = orig.take n := by
    intro n hn
    rw [List.take_append_eq_append_take, List.take_take, min_eq_left hn, hlen_take]
    have h0 : n - e = 0 := by omega
    rw [h0]; simp
  have hVdrop : ∀ n, n ≤ e → (orig.take e ++ R0).drop n = (orig.take e).drop n ++ R0 := by
    intro n hn
    rw [List.drop_append_eq_append_drop, hlen_take]
    have h0 : n - e = 0 := by omega
    rw [h0]; simp
  have hVget : ∀ n, n < e → (orig.take e ++ R0).get? n = orig.get? n := by
    intro n hn
    rw [List.get?_append (by rw [hlen_take]; exact hn), List.get?_take hn]
  cases k with
  | false =>
    have hL : markStep (orig.take e ++ R0, L,
        if ps.isEmpty then none else some e) (toRun (s, false, lk))
        = (orig.take e ++ R0, L, some s) := by
      simp [markStep, toRun]
    have hR : markFromStep orig s false ps.isEmpty (R0, e)
        = ((orig.take e).drop s ++ R0, s) := by
      simp [markFromStep]
    have hLk : linkStep L (toRun (s, false, lk)) = L := by
      simp [linkStep, toRun]
    rw [hL, hR, hLk]
    rw [← List.append_assoc, take_append_take_drop orig s e (le_of_lt hse')]
  | true =>
    cases ps with
    | nil =>
      simp only [markFrom] at hmf
      injection hmf with h1 h2
      subst h1
      subst h2
      have hV : orig.take orig.length ++ ([] : List Char) = orig := by simp
      rw [hV]
      simp only [markStep, markFromStep, toRun, linkStep, List.isEmpty_nil,
        pySliceOO, List.take_length, List.drop_length, List.append_nil,
        Bool.not_true, List.length_drop, List.length_take, Nat.min_self]
      split_ifs <;> simp_all [List.append_assoc]
    | cons q qs =>
      have hes0 : s < e := hse'
      have hspan : pySliceOO (orig.take e ++ R0) (some s) (some e)
          = (orig.take e).drop s := by
        simp only [pySliceOO]
        rw [hVtake e le_rfl]
      simp only [List.isEmpty_cons, Bool.false_eq_true, if_false]
      simp only [markStep, markFromStep, toRun, linkStep, Bool.not_true,
        Bool.false_eq_true, if_false]
      rw [hspan]
      rw [hVget s hes0]
      by_cases hgt : ((orig.take e).drop s).length > 1
      · have hes : s + 2 ≤ e := by
          rw [List.length_drop, hlen_take] at hgt
          omega
        have hchar : pyCharAt (orig.take e ++ R0) ((e : Int) - 1) = orig.get? (e - 1) := by
          have h0 : (0 : Int) ≤ (e : Int) - 1 := by omega
          have h1 : ((e : Int) - 1).toNat = e - 1 := by omega
          simp only [pyCharAt, if_pos h0, h1]
          exact hVget (e - 1) (by omega)
        rw [hchar]
        simp only [if_pos hgt, not_false_eq_true, true_and]
        by_cases hnl1 : orig.get? s = some '\n'
        · by_cases hnl2 : orig.get? (e - 1) = some '\n'
          · simp only [if_pos hnl1, if_pos hnl2, pySliceOO]
            rw [hVtake (s + 1) (by omega), hVtake (e - 1) (by omega),
              hVdrop (e - 1) (by omega)]
            simp [List.append_assoc]
          · simp only [if_pos hnl1, if_neg hnl2, pySliceOO]
            rw [hVtake (s + 1) (by omega), hVtake e le_rfl, hVdrop e le_rfl]
            simp [List.append_assoc]
        · by_cases hnl2 : orig.get? (e - 1) = some '\n'
          · simp only [if_neg hnl1, if_pos hnl2, pySliceOO]
            rw [hVtake s (by omega), hVtake (e - 1) (by omega),
              hVdrop (e - 1) (by omega)]
            simp [List.append_assoc]
          · simp only [if_neg hnl1, if_neg hnl2, pySliceOO]
            rw [hVtake s (by omega), hVtake e le_rfl, hVdrop e le_rfl]
            simp [List.append_assoc]
      · have hdropnil : (orig.take e).drop e = [] :=
          List.drop_eq_nil_of_le (by rw [hlen_take])
        simp only [if_neg hgt]
        simp only [pySliceOO]
        rw [hVtake s (by omega), hVtake e le_rfl, hVdrop e le_rfl, hdropnil]
        simp [List.append_assoc]

/-- The marking loop of `SheetCell.parse`, on runs with explicit,
strictly increasing, in-range start offsets, computes exactly the
closed-form rendering `markFrom`: a prefix up to the (possibly shifted)
first start followed by the per-run segments. -/
theorem markLoop_toRuns_eq (orig : List Char) :
    ∀ (rs : List (Nat × Bool × Option String)) (links : List String),
      List.Chain' (· < ·) (rs.map (·.1)) →
      (∀ p ∈ rs, p.1 < orig.length) →
      markLoop orig links (toRuns rs)
        = (orig.take (markFrom orig (runPairs rs)).2 ++ (markFrom orig (runPairs rs)).1,
           linksAfter links (toRuns rs),
           if rs.isEmpty then none else some (markFrom orig (runPairs rs)).2) := by
  intro rs
  induction rs with
  | nil =>
    intro links _ _
    simp [markLoop, toRuns, runPairs, markFrom, linksAfter]
  | cons p rest ih =>
    intro links hchain hlt
    obtain ⟨s, k, lk⟩ := p
    have hchain' : List.Chain' (· < ·) (rest.map (·.1)) := by
      rw [List.map_cons] at hchain
      exact hchain.tail
    have hlt' : ∀ q ∈ rest, q.1 < orig.length := fun q hq => hlt q (by simp [hq])
    have IH := ih links hchain' hlt'
    have hstep : markLoop orig links (toRuns ((s, k, lk) :: rest))
        = markStep (markLoop orig links (toRuns rest)) (toRun (s, k, lk)) := by
      simp [markLoop, toRuns, List.reverse_cons, List.foldl_append]
    have hlinks : linksAfter links (toRuns ((s, k, lk) :: rest))
        = linkStep (linksAfter links (toRuns rest)) (toRun (s, k, lk)) := by
      simp [linksAfter, toRuns, List.reverse_cons, List.foldl_append]
    have hle : (markFrom orig (runPairs rest)).2 ≤ orig.length := by
      apply markFrom_snd_le
      intro q hq
      rw [runPairs, List.mem_map] at hq
      obtain ⟨q0, hq0, hq1⟩ := hq
      rw [← hq1]
      exact hlt' q0 hq0
    have hse : s < (markFrom orig (runPairs rest)).2 := by
      cases rest with
      | nil =>
        have := hlt (s, k, lk) (by simp)
        simpa [runPairs, markFrom] using this
      | cons q rest2 =>
        have h1 : s < q.1 := by
          rw [List.map_cons, List.map_cons, List.chain'_cons] at hchain
          exact hchain.1
        have h3 : runPairs (q :: rest2) = (q.1, q.2.1) :: runPairs rest2 := rfl
        rw [h3]
        rcases markFrom_snd_bounds orig q.1 q.2.1 (runPairs rest2) with h2 | h2 <;>
          rw [h2] <;> omega
    have hemp : rest.isEmpty = (runPairs rest).isEmpty := by
      cases rest <;> simp [runPairs]
    rw [hstep, IH, hlinks, hemp]
    have hfinal := markStep_eq_markFrom_cons orig
      (linksAfter links (toRuns rest)) s k lk (runPairs rest) hse hle
    rw [hfinal]
    have hpairs : runPairs ((s, k, lk) :: rest) = (s, k) :: runPairs rest := rfl
    rw [hpairs]
    simp

theorem markFrom_count_marker (orig : List Char) (c : Char)
    (hc : c ∉ orig) (hm : c = STX ∨ c = ETX) :
    ∀ ps : List (Nat × Bool),
      ((markFrom orig ps).1.count c) = (ps.filter (·.2)).length := by
  intro ps
  induction ps with
  | nil => simp [markFrom]
  | cons p rest ih =>
    obtain ⟨s, k⟩ := p
    have hsl : ∀ a b, c ∉ (orig.take a).drop b := fun a b h =>
      hc (List.take_subset _ _ (List.drop_subset _ _ h))
    simp only [markFrom, markFromStep]
    cases k with
    | false =>
      simp only [Bool.false_eq_true, if_false]
      rw [List.count_append, List.count_eq_zero.2 (hsl _ _), ih]
      simp [List.filter_cons]
    | true =>
      have f1 : ∀ l : List Char, List.count STX (STX :: l) = List.count STX l + 1 := by
        intro l
        simp [List.count_cons]
      have f2 : ∀ l : List Char, List.count STX (ETX :: l) = List.count STX l := by
        intro l
        have : ¬ (ETX = STX) := by decide
        simp [List.count_cons, this]
      have f3 : ∀ l : List Char, List.count ETX (ETX :: l) = List.count ETX l + 1 := by
        intro l
        simp [List.count_cons]
      have f4 : ∀ l : List Char, List.count ETX (STX :: l) = List.count ETX l := by
        intro l
        have : ¬ (STX = ETX) := by decide
        simp [List.count_cons, this]
      have hz : ∀ a b, List.count c ((orig.take a).drop b) = 0 := fun a b =>
        List.count_eq_zero.2 (hsl a b)
      simp only [if_true]
      split_ifs with h1 <;>
        rcases hm with hm | hm <;> subst hm <;>
          simp [List.count_append, hz, ih, List.filter_cons, f1, f2, f3, f4]

theorem toRuns_all_strikethrough (rs : List (Nat × Bool × Option String)) :
    (toRuns rs).all (·.strikethrough) = rs.all (fun p => p.2.1) := by
  induction rs with
  | nil => rfl
  | cons q qs ihq =>
    simp only [toRuns] at ihq
    simp only [toRuns, List.map_cons, List.all_cons, ihq]
    rfl

theorem parseCell_value_of_not_done (c : CellData) (h : computeDone c = false) :
    (parseCell c).value
      = (markLoop c.formattedValue (collectRunLinks c.textFormatRuns)
          c.textFormatRuns).1 := by
  simp [parseCell, h]

/-- C3 amended: for a cell whose cell-level strikethrough flag is off and
whose runs — with explicit, strictly increasing, in-range start offsets —
are not all struck through, parsing yields `done = false` and a value
equal to the closed-form rendering `markFrom`: each struck run's span is
wrapped in exactly one sentinel pair (the STX / ETX counts equal the
number of struck runs when the raw value has no markers), with a single
leading newline shifted out in front of the start marker and — when the
run is not the last — a single trailing newline pulled out behind the end
marker.  (The claim's blanket "markers never split a newline" and its
unconditional `done = false` fail; see the counterexample.) -/
theorem C3_marking_characterization (c : CellData)
    (rs : List (Nat × Bool × Option String))
    (hc1 : c.strikethrough = false) (hc2 : c.textFormatRuns = toRuns rs)
    (hchain : List.Chain' (· < ·) (rs.map (·.1)))
    (hlt : ∀ p ∈ rs, p.1 < c.formattedValue.length)
    (hnotall : rs.all (fun p => p.2.1) = false)
    (hSTX : STX ∉ c.formattedValue) (hETX : ETX ∉ c.formattedValue) :
    (parseCell c).done = false
    ∧ (parseCell c).value
      = c.formattedValue.take (markFrom c.formattedValue (runPairs rs)).2
        ++ (markFrom c.formattedValue (runPairs rs)).1
    ∧ (parseCell c).value.count STX = ((runPairs rs).filter (·.2)).length
    ∧ (parseCell c).value.count ETX = ((runPairs rs).filter (·.2)).length := by
  have hne : rs ≠ [] := by
    intro h0
    rw [h0] at hnotall
    simp at hnotall
  have hallruns : c.textFormatRuns.all (·.strikethrough) = false := by
    rw [hc2, toRuns_all_strikethrough]
    exact hnotall
  have hdone : computeDone c = false := by
    have hrne : c.textFormatRuns ≠ [] := by
      rw [hc2]
      simp [toRuns]
      exact hne
    simp [computeDone, hc1, hrne, hallruns]
  have hd : (parseCell c).done = false := by rw [parseCell_done]; exact hdone
  have hv0 := parseCell_value_of_not_done c hdone
  have hml := markLoop_toRuns_eq c.formattedValue rs
    (collectRunLinks (toRuns rs)) hchain hlt
  have hv : (parseCell c).value
      = c.formattedValue.take (markFrom c.formattedValue (runPairs rs)).2
        ++ (markFrom c.formattedValue (runPairs rs)).1 := by
    rw [hv0, hc2, hml]
  have htk : ∀ ch : Char, ch ∉ c.formattedValue →
      ch ∉ c.formattedValue.take (markFrom c.formattedValue (runPairs rs)).2 :=
    fun ch hch h0 => hch (List.take_subset _ _ h0)
  refine ⟨hd, hv, ?_, ?_⟩
  · rw [hv, List.count_append, List.count_eq_zero.2 (htk STX hSTX),
      markFrom_count_marker c.formattedValue STX hSTX (Or.inl rfl)]
    simp
  · rw [hv, List.count_append, List.count_eq_zero.2 (htk ETX hETX),
      markFrom_count_marker c.formattedValue ETX hETX (Or.inr rfl)]
    simp

/-- A two-run cell (first run struck, second not) for the C3 witness. -/
def c3WitnessCell : CellData :=
  { formattedValue := "xy".toList, strikethrough := false,
    textFormatRuns := toRuns [(0, true, none), (1, false, none)] }

theorem C3_witness :
    (parseCell c3WitnessCell).done = false
    ∧ (parseCell c3WitnessCell).value
      = c3WitnessCell.formattedValue.take
          (markFrom c3WitnessCell.formattedValue
            (runPairs [(0, true, none), (1, false, none)])).2
        ++ (markFrom c3WitnessCell.formattedValue
            (runPairs [(0, true, none), (1, false, none)])).1
    ∧ (parseCell c3WitnessCell).value.count STX
      = ((runPairs [(0, true, none), (1, false, none)]).filter (·.2)).length
    ∧ (parseCell c3WitnessCell).value.count ETX
      = ((runPairs [(0, true, none), (1, false, none)]).filter (·.2)).length :=
  C3_marking_characterization c3WitnessCell [(0, true, none), (1, false, none)]
    rfl rfl (by simp [List.chain'_cons]) (by decide) (by decide) (by decide) (by decide)

/- ----------------------- C8 ----------------------- -/

theorem markStep_links (st : List Char × List String × Option Nat) (fr : FormatRun) :
    (markStep st fr).2.1 = linkStep st.2.1 fr := by
  by_cases h : fr.strikethrough = true <;> simp [markStep, linkStep, h]

theorem foldl_markStep_links :
    ∀ (rl : List FormatRun) (st : List Char × List String × Option Nat),
      (rl.foldl markStep st).2.1 = rl.foldl linkStep st.2.1 := by
  intro rl
  induction rl with
  | nil => intro st; rfl
  | cons r t ih =>
    intro st
    rw [List.foldl_cons, List.foldl_cons, ih, markStep_links]

theorem linkStep_nodup (links : List String) (fr : FormatRun) (h : links.Nodup) :
    (linkStep links fr).Nodup := by
  by_cases h1 : fr.strikethrough = true
  · cases hfr : fr.link with
    | some lk =>
      by_cases h2 : lk = "" <;> simp [linkStep, h1, hfr, h2, h, List.Nodup.erase]
    | none => simp [linkStep, h1, hfr, h]
  · simp [linkStep, h1, h]

theorem linkStep_subset (links : List String) (fr : FormatRun) :
    linkStep links fr ⊆ links := by
  by_cases h1 : fr.strikethrough = true
  · cases hfr : fr.link with
    | some lk =>
      by_cases h2 : lk = ""
      · simp [linkStep, h1, hfr, h2]
      · simp only [linkStep, h1, hfr, h2, if_pos, ne_eq, not_false_eq_true, if_true]
        exact List.erase_subset _ _
    | none => simp [linkStep, h1, hfr]
  · simp [linkStep, h1]

theorem foldl_linkStep_filter :
    ∀ (rl : List FormatRun) (links : List String), links.Nodup → "" ∉ links →
      rl.foldl linkStep links
        = links.filter (fun l => !(rl.any (fun r => r.strikethrough ∧ r.link = some l))) := by
  intro rl
  induction rl with
  | nil =>
    intro links _ _
    simp
  | cons r t ih =>
    intro links hnd hne
    rw [List.foldl_cons]
    have hnd2 : (linkStep links r).Nodup := linkStep_nodup _ _ hnd
    have hne2 : "" ∉ linkStep links r := fun hm => hne (linkStep_subset links r hm)
    rw [ih _ hnd2 hne2]
    by_cases h1 : r.strikethrough = true
    · cases hfr : r.link with
      | some lk =>
        by_cases h2 : lk = ""
        · subst h2
          have hstep : linkStep links r = links := by simp [linkStep, h1, hfr]
          rw [hstep]
          apply List.filter_congr
          intro a ha
          have hane : ¬ ("" = a) := fun h0 => hne (h0 ▸ ha)
          simp [List.any_cons, h1, hfr, hane]
        · have hstep : linkStep links r = links.erase lk := by
            simp [linkStep, h1, hfr, h2]
          rw [hstep, List.Nodup.erase_eq_filter hnd, List.filter_filter]
          apply List.filter_congr
          intro a ha
          by_cases h3 : lk = a
          · simp [List.any_cons, h1, hfr, h3]
          · have h3' : ¬ a = lk := fun h0 => h3 h0.symm
            simp [List.any_cons, h1, hfr, h3, h3']
      | none =>
        have hstep : linkStep links r = links := by simp [linkStep, h1, hfr]
        rw [hstep]
        apply List.filter_congr
        intro a ha
        simp [List.any_cons, h1, hfr]
    · have hstep : linkStep links r = links := by simp [linkStep, h1]
      rw [hstep]
      apply List.filter_congr
      intro a ha
      simp [List.any_cons, h1]

theorem collectRunLinks_invariant (runs : List FormatRun) :
    ∀ acc : List String, acc.Nodup → (∀ l ∈ acc, hasHost l = true) →
      ((runs.foldl (fun acc fr =>
          match fr.link with
          | some l => if l ≠ "" ∧ hasHost l ∧ l ∉ acc then acc ++ [l] else acc
          | none => acc) acc).Nodup
      ∧ ∀ l ∈ runs.foldl (fun acc fr =>
          match fr.link with
          | some l => if l ≠ "" ∧ hasHost l ∧ l ∉ acc then acc ++ [l] else acc
          | none => acc) acc, hasHost l = true) := by
  induction runs with
  | nil => intro acc h1 h2; exact ⟨h1, h2⟩
  | cons r t ih =>
    intro acc h1 h2
    rw [List.foldl_cons]
    cases hfr : r.link with
    | none => exact ih acc h1 h2
    | some lk =>
      by_cases hc : lk ≠ "" ∧ hasHost lk = true ∧ lk ∉ acc
      · have hacc1 : (acc ++ [lk]).Nodup := by
          simp [List.nodup_append, h1, hc.2.2]
        have hacc2 : ∀ l ∈ acc ++ [lk], hasHost l = true := by
          intro l hl
          rcases List.mem_append.1 hl with hl | hl
          · exact h2 l hl
          · rw [List.mem_singleton.1 hl]
            exact hc.2.1
        have := ih (acc ++ [lk]) hacc1 hacc2
        simpa [hfr, if_pos hc] using this
      · have := ih acc h1 h2
        simpa [hfr, if_neg hc] using this

theorem collectRunLinks_nodup (runs : List FormatRun) : (collectRunLinks runs).Nodup :=
  (collectRunLinks_invariant runs [] List.nodup_nil (by simp)).1

theorem collectRunLinks_hasHost (runs : List FormatRun) :
    ∀ l ∈ collectRunLinks runs, hasHost l = true :=
  (collectRunLinks_invariant runs [] List.nodup_nil (by simp)).2

theorem collectRunLinks_ne_empty_string (runs : List FormatRun) :
    "" ∉ collectRunLinks runs := by
  intro h
  have := collectRunLinks_hasHost runs "" h
  simp [hasHost, stripScheme] at this

theorem hyperAppend_nodup (h : Option String) (ls : List String) (hnd : ls.Nodup) :
    (hyperAppend h ls).Nodup := by
  cases h with
  | none => exact hnd
  | some u =>
    by_cases hc : hasHost u = true ∧ u ∉ ls
    · simp [hyperAppend, hc.1, hc.2, List.nodup_append, hnd]
    · simp [hyperAppend, if_neg hc, hnd]

theorem hyperAppend_hasHost (h : Option String) (ls : List String)
    (hh : ∀ l ∈ ls, hasHost l = true) :
    ∀ l ∈ hyperAppend h ls, hasHost l = true := by
  cases h with
  | none => exact hh
  | some u =>
    by_cases hc : hasHost u = true ∧ u ∉ ls
    · intro l hl
      rw [hyperAppend, if_pos hc] at hl
      rcases List.mem_append.1 hl with hl | hl
      · exact hh l hl
      · rw [List.mem_singleton.1 hl]
        exact hc.1
    · intro l hl
      rw [hyperAppend, if_neg hc] at hl
      exact hh l hl

theorem parseCell_links_of_not_done (c : CellData) (h : computeDone c = false) :
    (parseCell c).links
      = hyperAppend c.hyperlink
          ((markLoop c.formattedValue (collectRunLinks c.textFormatRuns)
            c.textFormatRuns).2.1) := by
  simp [parseCell, h]

/-- C8 amended: for a not-fully-done cell, the final link list is exactly
the run-collected links (distinct, first-seen order, host-bearing) with
every link carried by *some* struck run removed — even a link also
carried by a non-struck run — followed by the cell-level hyperlink when
it has a host and is not already present; the result is duplicate-free
and every member has a host.  (The claim's "a URL also carried by a
non-struck run remains" fails; see the counterexample.) -/
theorem C8_links_characterization (c : CellData)
    (hd : (parseCell c).done = false) :
    (parseCell c).links
      = hyperAppend c.hyperlink
          ((collectRunLinks c.textFormatRuns).filter
            (fun l => !(struckCarries c.textFormatRuns l)))
    ∧ (parseCell c).links.Nodup
    ∧ ∀ l ∈ (parseCell c).links, hasHost l = true := by
  have hdone : computeDone c = false := by rw [← parseCell_done]; exact hd
  have hproj : (markLoop c.formattedValue (collectRunLinks c.textFormatRuns)
      c.textFormatRuns).2.1
      = c.textFormatRuns.reverse.foldl linkStep (collectRunLinks c.textFormatRuns) := by
    rw [markLoop, foldl_markStep_links]
  have hfilter := foldl_linkStep_filter c.textFormatRuns.reverse
    (collectRunLinks c.textFormatRuns)
    (collectRunLinks_nodup c.textFormatRuns)
    (collectRunLinks_ne_empty_string c.textFormatRuns)
  have hrev : ∀ l : String,
      (c.textFormatRuns.reverse.any (fun r => r.strikethrough ∧ r.link = some l))
        = struckCarries c.textFormatRuns l := by
    intro l
    rw [struckCarries, List.any_reverse]
  have hlinks : (parseCell c).links
      = hyperAppend c.hyperlink
          ((collectRunLinks c.textFormatRuns).filter
            (fun l => !(struckCarries c.textFormatRuns l))) := by
    rw [parseCell_links_of_not_done c hdone, hproj, hfilter]
    congr 1
    apply List.filter_congr
    intro a _
    rw [hrev a]
  refine ⟨hlinks, ?_, ?_⟩
  · rw [hlinks]
    exact hyperAppend_nodup _ _ ((collectRunLinks_nodup c.textFormatRuns).filter _)
  · rw [hlinks]
    apply hyperAppend_hasHost
    intro l hl
    exact collectRunLinks_hasHost c.textFormatRuns l (List.mem_of_mem_filter hl)

/-- A cell where the same URL is carried by a non-struck run and by a
struck run: the URL vanishes from the final link list. -/
def c8Cell : CellData :=
  { formattedValue := "ab".toList, strikethrough := false,
    textFormatRuns := toRuns
      [(0, false, some "https://e.example/x"), (1, true, some "https://e.example/x")] }

theorem C8_counterexample :
    (parseCell c8Cell).links = []
    ∧ (c8Cell.textFormatRuns.any
        (fun r => !r.strikethrough ∧ r.link = some "https://e.example/x")) = true
    ∧ "https://e.example/x" ∉ (parseCell c8Cell).links := by
  refine ⟨rfl, rfl, by simp [show (parseCell c8Cell).links = [] from rfl]⟩

/-- A cell with one struck run retracting its link, a non-struck run
carrying a different link, and a cell-level hyperlink, for the C8
witness. -/
def c8WitnessCell : CellData :=
  { formattedValue := "ab".toList, strikethrough := false,
    textFormatRuns := toRuns
      [(0, false, some "https://e.example/x"), (1, true, some "https://e.example/y")],
    hyperlink := some "https://e.example/z" }

theorem C8_witness :
    ((parseCell c8WitnessCell).links
      = hyperAppend c8WitnessCell.hyperlink
          ((collectRunLinks c8WitnessCell.textFormatRuns).filter
            (fun l => !(struckCarries c8WitnessCell.textFormatRuns l)))
    ∧ (parseCell c8WitnessCell).links.Nodup
    ∧ ∀ l ∈ (parseCell c8WitnessCell).links, hasHost l = true) :=
  C8_links_characterization c8WitnessCell rfl

/- ---------------------------------------------------------------------
Fragment name extraction
(`extract/sheets/performers_to_split_up.py`, lines 22-36 and 147-158).

`compile_labels_pattern` builds the case-insensitive regex
`(- )? *\[(stash(db)?|iafd|i(nde)?xxx|(the)?nude|[be]gafd|d(ata)?18|gevi|imdb|adt|studio|scene)( ?\d)?\]`.
The matcher below implements exactly this pattern with the regex
engine's preferences: alternatives in order, greedy optional groups,
backtracking into shorter variants when the tail fails.
`_parse_fragment_cell` strips the cell value, splits it into lines and
derives the fragment name from the first line; only that name path is
modelled (links, notes and text do not influence `name`).
--------------------------------------------------------------------- -/

def isWS (c : Char) : Bool :=
  c = ' ' ∨ c = '\t' ∨ c = '\n' ∨ c = '\r' ∨ c = Char.ofNat 11 ∨ c = Char.ofNat 12

def trimLeft (l : List Char) : List Char := l.dropWhile isWS

def trimRight (l : List Char) : List Char := (l.reverse.dropWhile isWS).reverse

/-- Python `str.strip()` over the default whitespace set. -/
def pyStripL (l : List Char) : List Char := trimRight (trimLeft l)

/-- `str.splitlines` restricted to `\n` separators (the only terminator
occurring in spreadsheet cell values); returns `[[]]` on `[]`, callers
use `pySplitlines`. -/
def splitNL : List Char → List (List Char)
  | [] => [[]]
  | c :: t =>
    if c = '\n' then [] :: splitNL t
    else
      match splitNL t with
      | h :: r => (c :: h) :: r
      | [] => [[c]]

def pySplitlines (l : List Char) : List (List Char) :=
  if l = [] then [] else splitNL l

def joinNL : List (List Char) → List Char
  | [] => []
  | [l] => l
  | l :: ls => l ++ '\n' :: joinNL ls

/-- The label alternatives in regex alternation order, each expanded into
its greedy-first literal variants. -/
def labelCands : List (List Char) :=
  ["stashdb".toList, "stash".toList, "iafd".toList, "indexxx".toList, "ixxx".toList,
   "thenude".toList, "nude".toList, "bgafd".toList, "egafd".toList, "data18".toList,
   "d18".toList, "gevi".toList, "imdb".toList, "adt".toList, "studio".toList,
   "scene".toList]

def startsWithCI (t pat : List Char) : Bool :=
  (t.take pat.length).map Char.toLower = pat

/-- Match `(labels)( ?\d)?\]` at the head of `t` (just after the opening
bracket); returns the number of consumed characters. -/
def labelTail (t : List Char) : Option Nat :=
  (labelCands.filterMap (fun cand =>
    if startsWithCI t cand then
      (match t.drop cand.length with
       | ' ' :: d :: ']' :: _ => if d.isDigit then some (cand.length + 3) else none
       | _ => none) <|>
      (match t.drop cand.length with
       | d :: ']' :: _ => if d.isDigit then some (cand.length + 2) else none
       | _ => none) <|>
      (match t.drop cand.length with
       | ']' :: _ => some (cand.length + 1)
       | _ => none)
    else none)).head?

/-- Match ` *\[(labels)( ?\d)?\]` at the head of `u` (maximal-munch
spaces, then the bracketed label); `pre` counts characters already
consumed by the optional `- `. -/
def labelAttempt (u : List Char) (pre : Nat) : Option Nat :=
  let sp := (u.takeWhile (· = ' ')).length
  match u.drop sp with
  | '[' :: rest => (labelTail rest).map (fun k2 => pre + sp + 1 + k2)
  | _ => none

/-- Match the full label pattern at the head of `t`; the optional `- `
branch is tried first, falling back to the bare variant. -/
def matchLen (t : List Char) : Option Nat :=
  match t with
  | '-' :: ' ' :: u => labelAttempt u 2 <|> labelAttempt t 0
  | _ => labelAttempt t 0

/-- `finditer`: scan left to right, resuming after each match. -/
def scanMs (s : List Char) : Nat → Nat → List (Nat × Nat)
  | 0, _ => []
  | fuel + 1, i =>
    if i < s.length then
      match matchLen (s.drop i) with
      | some k => (i, i + k) :: scanMs s fuel (i + k)
      | none => scanMs s fuel (i + 1)
    else []

def findMs (s : List Char) : List (Nat × Nat) := scanMs s (s.length + 1) 0

/-- `pattern.sub(repl = empty)`: concatenate the segments between the
(disjoint, increasing) match spans. -/
def removeSpans (s : List Char) (ms : List (Nat × Nat)) : List Char :=
  let fin := ms.foldl
    (fun (ap : List Char × Nat) m => (ap.1 ++ ((s.take m.1).drop ap.2), m.2)) ([], 0)
  fin.1 ++ s.drop fin.2

def stripLabels (s : List Char) : List Char := removeSpans s (findMs s)

def noNameDefault : List Char := "[no name provided]".toList

/-- The name computed by `_parse_fragment_cell` from the (stripped,
non-empty) cell value: pop the first line; if no further lines exist and
the line matches labels, the name is the text before the first label
match, otherwise the label-stripped first line; then strip, with a
placeholder for an empty result. -/
def nameOf (raw : List Char) : List Char :=
  match pySplitlines raw with
  | [] => noNameDefault
  | first :: rest =>
    let nm := match rest, findMs first with
      | [], (a, _) :: _ => first.take a
      | _, _ => stripLabels first
    let nm2 := pyStripL nm
    if nm2 = [] then noNameDefault else nm2

/-- Fragment name of a raw cell value: `none` exactly when the stripped
value is empty (`_get_fragments` skips such cells). -/
def fragName (v : List Char) : Option (List Char) :=
  let raw := pyStripL v
  if raw = [] then none else some (nameOf raw)

/-- The claim's round-trip stripping operation: delete the sentinel
marker characters, then remove every label token from each line. -/
def claimStrip (raw : List Char) : List Char :=
  joinNL ((pySplitlines (raw.filter (fun c => !(c = STX ∨ c = ETX)))).map stripLabels)

/- ----------------------- C9: split / trim lemmas ----------------------- -/

theorem splitNL_cons_ne {c : Char} {t h0 : List Char} {r : List (List Char)}
    (hc : ¬ (c = '\n')) (ht : splitNL t = h0 :: r) :
    splitNL (c :: t) = (c :: h0) :: r := by
  rw [splitNL, if_neg hc, ht]

theorem splitNL_cons_nl (t : List Char) : splitNL ('\n' :: t) = [] :: splitNL t := by
  rw [splitNL]
  simp

theorem splitNL_ne_nil : ∀ l : List Char, splitNL l ≠ [] := by
  intro l
  induction l with
  | nil => simp [splitNL]
  | cons c t ih =>
    by_cases h : c = '\n'
    · subst h
      simp [splitNL]
    · cases ht : splitNL t with
      | nil => exact absurd ht ih
      | cons h0 r => simp [splitNL, h, ht]

theorem mem_splitNL_no_newline : ∀ (l : List Char) (p : List Char),
    p ∈ splitNL l → '\n' ∉ p := by
  intro l
  induction l with
  | nil =>
    intro p hp
    simp [splitNL] at hp
    simp [hp]
  | cons c t ih =>
    intro p hp
    by_cases h : c = '\n'
    · subst h
      rw [splitNL_cons_nl] at hp
      rcases List.mem_cons.1 hp with hp | hp
      · simp [hp]
      · exact ih p hp
    · cases ht : splitNL t with
      | nil => exact absurd ht (splitNL_ne_nil t)
      | cons h0 r =>
        rw [splitNL_cons_ne h ht] at hp
        rcases List.mem_cons.1 hp with hp | hp
        · subst hp
          intro hm
          rcases List.mem_cons.1 hm with hm | hm
          · exact h hm.symm
          · exact ih h0 (by rw [ht]; simp) hm
        · exact ih p (by rw [ht]; simp [hp])

theorem mem_splitNL_subset : ∀ (l : List Char) (p : List Char),
    p ∈ splitNL l → ∀ c ∈ p, c ∈ l := by
  intro l
  induction l with
  | nil =>
    intro p hp
    simp [splitNL] at hp
    simp [hp]
  | cons c t ih =>
    intro p hp x hx
    by_cases h : c = '\n'
    · subst h
      rw [splitNL_cons_nl] at hp
      rcases List.mem_cons.1 hp with hp | hp
      · subst hp
        simp at hx
      · simp [ih p hp x hx]
    · cases ht : splitNL t with
      | nil => exact absurd ht (splitNL_ne_nil t)
      | cons h0 r =>
        rw [splitNL_cons_ne h ht] at hp
        rcases List.mem_cons.1 hp with hp | hp
        · subst hp
          rcases List.mem_cons.1 hx with hx | hx
          · simp [hx]
          · simp [ih h0 (by rw [ht]; simp) x hx]
        · simp [ih p (by rw [ht]; simp [hp]) x hx]

theorem splitNL_of_no_newline : ∀ l : List Char, '\n' ∉ l → splitNL l = [l] := by
  intro l
  induction l with
  | nil => intro _; rfl
  | cons c t ih =>
    intro h
    have hc : ¬ (c = '\n') := fun h0 => h (by simp [h0])
    have ht : splitNL t = [t] := ih (fun h0 => h (by simp [h0]))
    rw [splitNL_cons_ne hc ht]

theorem splitNL_append_cons (a b : List Char) (ha : '\n' ∉ a) :
    splitNL (a ++ '\n' :: b) = a :: splitNL b := by
  induction a with
  | nil => simp [splitNL]
  | cons c t ih =>
    have hc : ¬ (c = '\n') := fun h0 => ha (by simp [h0])
    have ht := ih (fun h0 => ha (by simp [h0]))
    cases hsp : splitNL (t ++ '\n' :: b) with
    | nil => exact absurd hsp (splitNL_ne_nil _)
    | cons h0 r =>
      rw [List.cons_append, splitNL_cons_ne hc hsp]
      rw [hsp] at ht
      injection ht with h1 h2
      rw [h1, h2]

theorem dropWhile_isSuffix (p : Char → Bool) :
    ∀ l : List Char, l.dropWhile p <:+ l := by
  intro l
  induction l with
  | nil => exact List.suffix_rfl
  | cons c t ih =>
    by_cases h : p c
    · rw [List.dropWhile_cons_of_pos h]
      exact ih.trans (List.suffix_cons c t)
    · rw [List.dropWhile_cons_of_neg h]

theorem dropWhile_idem (p : Char → Bool) (l : List Char) :
    (l.dropWhile p).dropWhile p = l.dropWhile p := by
  induction l with
  | nil => rfl
  | cons c t ih =>
    by_cases h : p c
    · rw [List.dropWhile_cons_of_pos h]
      exact ih
    · rw [List.dropWhile_cons_of_neg h, List.dropWhile_cons_of_neg h]

theorem trimLeft_idem (l : List Char) : trimLeft (trimLeft l) = trimLeft l :=
  dropWhile_idem isWS l

theorem trimRight_idem (l : List Char) : trimRight (trimRight l) = trimRight l := by
  unfold trimRight
  rw [List.reverse_reverse, dropWhile_idem]

theorem trimLeft_subset (l : List Char) : trimLeft l ⊆ l :=
  (dropWhile_isSuffix isWS l).subset

theorem trimRight_subset (l : List Char) : trimRight l ⊆ l := by
  intro c hc
  unfold trimRight at hc
  rw [List.mem_reverse] at hc
  have := (dropWhile_isSuffix isWS l.reverse).subset hc
  rw [List.mem_reverse] at this
  exact this

theorem trimRight_isPrefixOf (l : List Char) : trimRight l <+: l := by
  have h := dropWhile_isSuffix isWS l.reverse
  have h2 := h.reverse
  rw [List.reverse_reverse] at h2
  exact h2

theorem trimRight_eq_nil_iff (l : List Char) :
    trimRight l = [] ↔ ∀ c ∈ l, isWS c = true := by
  unfold trimRight
  rw [List.reverse_eq_nil_iff, List.dropWhile_eq_nil_iff]
  constructor
  · intro h c hc
    exact h c (List.mem_reverse.2 hc)
  · intro h c hc
    exact h c (List.mem_reverse.1 hc)

theorem trimLeft_eq_nil_iff (l : List Char) :
    trimLeft l = [] ↔ ∀ c ∈ l, isWS c = true :=
  List.dropWhile_eq_nil_iff

theorem trimLeft_append_of_ne_nil (a b : List Char) (h : trimLeft a ≠ []) :
    trimLeft (a ++ b) = trimLeft a ++ b := by
  unfold trimLeft at *
  rw [List.dropWhile_append]
  have : (a.dropWhile isWS).isEmpty = false := by
    cases hd : a.dropWhile isWS with
    | nil => exact absurd hd h
    | cons x xs => rfl
  rw [this]
  simp

theorem trimRight_append_of_ne_nil (a b : List Char) (h : trimRight b ≠ []) :
    trimRight (a ++ b) = a ++ trimRight b := by
  unfold trimRight at *
  rw [List.reverse_append, List.dropWhile_append]
  have : (b.reverse.dropWhile isWS).isEmpty = false := by
    cases hd : b.reverse.dropWhile isWS with
    | nil =>
      rw [hd] at h
      simp at h
    | cons x xs => rfl
  rw [this]
  simp

theorem trimRight_append_allws (a b : List Char) (h : ∀ c ∈ b, isWS c = true) :
    trimRight (a ++ b) = trimRight a := by
  unfold trimRight
  rw [List.reverse_append, List.dropWhile_append_of_pos]
  intro c hc
  exact h c (List.mem_reverse.1 hc)

theorem trimLeft_fix_head (c : Char) (z : List Char)
    (h : trimLeft (c :: z) = c :: z) : isWS c = false := by
  by_cases hc : isWS c = true
  · exfalso
    unfold trimLeft at h
    rw [List.dropWhile_cons_of_pos hc] at h
    have hlen : (z.dropWhile isWS).length ≤ z.length := (dropWhile_isSuffix isWS z).length_le
    have : (z.dropWhile isWS).length = (c :: z).length := by rw [h]
    simp at this
    omega
  · simpa using hc

theorem trimLeft_of_trimLeft_fix (x : List Char) (hx : trimLeft x = x) :
    trimLeft (trimRight x) = trimRight x := by
  cases htr : trimRight x with
  | nil => rfl
  | cons c y =>
    obtain ⟨t, ht⟩ := trimRight_isPrefixOf x
    rw [htr] at ht
    have hx2 : trimLeft (c :: (y ++ t)) = c :: (y ++ t) := by
      rw [show c :: (y ++ t) = x from by rw [← ht]; simp]
      exact hx
    have hc := trimLeft_fix_head c (y ++ t) hx2
    unfold trimLeft
    rw [List.dropWhile_cons_of_neg (by simp [hc])]

theorem pyStripL_idem (l : List Char) : pyStripL (pyStripL l) = pyStripL l := by
  unfold pyStripL
  rw [trimLeft_of_trimLeft_fix (trimLeft l) (trimLeft_idem l), trimRight_idem]

theorem pyStripL_subset (l : List Char) : pyStripL l ⊆ l := by
  intro c hc
  exact trimLeft_subset l (trimRight_subset (trimLeft l) hc)

theorem pyStripL_trimLeft_ne_nil (l : List Char) (h : pyStripL l ≠ []) :
    trimLeft l ≠ [] := by
  intro h0
  apply h
  unfold pyStripL
  rw [h0]
  rfl

/- ----------------------- C9: matcher lemmas ----------------------- -/

theorem labelAttempt_none (u : List Char) (pre : Nat) (h : '[' ∉ u) :
    labelAttempt u pre = none := by
  simp only [labelAttempt]
  split
  · rename_i rest heq
    exact absurd (List.drop_subset _ u (by rw [heq]; exact List.mem_cons_self _ _)) h
  · rfl

theorem matchLen_eq_none (u : List Char) (h : '[' ∉ u) : matchLen u = none := by
  unfold matchLen
  split
  · rename_i u'
    have h2 : '[' ∉ u' := fun hm => h (by simp [hm])
    rw [labelAttempt_none u' 2 h2, labelAttempt_none _ 0 h]
    rfl
  · exact labelAttempt_none _ 0 h

theorem scanMs_eq_nil (s : List Char) (h : '[' ∉ s) :
    ∀ (fuel i : Nat), scanMs s fuel i = [] := by
  intro fuel
  induction fuel with
  | zero => intro i; rfl
  | succ f ih =>
    intro i
    rw [scanMs]
    by_cases hi : i < s.length
    · rw [if_pos hi]
      have hnone : matchLen (s.drop i) = none :=
        matchLen_eq_none _ (fun hm => h (List.drop_subset _ _ hm))
      rw [hnone]
      exact ih (i + 1)
    · rw [if_neg hi]

theorem findMs_eq_nil (s : List Char) (h : '[' ∉ s) : findMs s = [] :=
  scanMs_eq_nil s h _ 0

theorem removeSpans_nil (s : List Char) : removeSpans s [] = s := by
  simp [removeSpans]

theorem stripLabels_of_no_bracket (s : List Char) (h : '[' ∉ s) :
    stripLabels s = s := by
  rw [stripLabels, findMs_eq_nil s h, removeSpans_nil]

theorem removeSpans_fst_subset (s : List Char) :
    ∀ (ms : List (Nat × Nat)) (acc : List Char) (pos : Nat), (∀ c ∈ acc, c ∈ s) →
      ∀ c ∈ (ms.foldl
        (fun (ap : List Char × Nat) m => (ap.1 ++ ((s.take m.1).drop ap.2), m.2))
        (acc, pos)).1, c ∈ s := by
  intro ms
  induction ms with
  | nil => intro acc pos hacc c hc; exact hacc c hc
  | cons m t ih =>
    intro acc pos hacc c hc
    rw [List.foldl_cons] at hc
    refine ih _ _ ?_ c hc
    intro x hx
    rcases List.mem_append.1 hx with hx | hx
    · exact hacc x hx
    · exact List.take_subset _ _ (List.drop_subset _ _ hx)

theorem stripLabels_subset (s : List Char) : stripLabels s ⊆ s := by
  intro c hc
  rw [stripLabels, removeSpans] at hc
  rcases List.mem_append.1 hc with hc | hc
  · exact removeSpans_fst_subset s (findMs s) [] 0 (by simp) c hc
  · exact List.drop_subset _ _ hc

theorem joinNL_nil : joinNL [] = [] := rfl

theorem joinNL_single (a : List Char) : joinNL [a] = a := rfl

theorem joinNL_cons_cons (a b : List Char) (t : List (List Char)) :
    joinNL (a :: b :: t) = a ++ '\n' :: joinNL (b :: t) := rfl

/- ----------------------- C9: name extraction lemmas ----------------------- -/

theorem nameOf_single (x : List Char) (hne : x ≠ []) (hnl : '\n' ∉ x)
    (hbr : '[' ∉ x) (hps : pyStripL x ≠ []) : nameOf x = pyStripL x := by
  have hsp : pySplitlines x = [x] := by
    rw [pySplitlines, if_neg hne, splitNL_of_no_newline x hnl]
  simp only [nameOf, hsp]
  rw [findMs_eq_nil x hbr]
  simp only
  rw [stripLabels_of_no_bracket x hbr, if_neg hps]

theorem nameOf_multi (x y : List Char) (hnl : '\n' ∉ x) (hbr : '[' ∉ x)
    (hps : pyStripL x ≠ []) : nameOf (x ++ '\n' :: y) = pyStripL x := by
  have hne : x ++ '\n' :: y ≠ [] := by simp
  have hsp : pySplitlines (x ++ '\n' :: y) = x :: splitNL y := by
    rw [pySplitlines, if_neg hne, splitNL_append_cons x y hnl]
  simp only [nameOf, hsp]
  cases hsy : splitNL y with
  | nil => exact absurd hsy (splitNL_ne_nil y)
  | cons h0 r =>
    simp only
    rw [stripLabels_of_no_bracket x hbr, if_neg hps]

/-- C9 amended: the round-trip — strip sentinel markers and label tokens
from a fragment's raw text, re-parse, compare names — holds for every
cell value that (i) contains no sentinel markers, (ii) whose first line,
after label stripping, contains no further `[` (so no new label token
arises), (iii) yields a non-empty name, and (iv), when the cell is a
single line with label matches, has its label tokens as a suffix of the
line (stripping them equals the text before the first match).  For such
cells both parses agree on the name.  (Unrestricted, the round-trip
fails; see the counterexample.) -/
theorem C9_roundtrip (v : List Char)
    (hne : pyStripL v ≠ [])
    (hmk : STX ∉ pyStripL v ∧ ETX ∉ pyStripL v)
    (hbr : '[' ∉ stripLabels ((pySplitlines (pyStripL v)).headD []))
    (hnm : pyStripL (stripLabels ((pySplitlines (pyStripL v)).headD [])) ≠ [])
    (hsingle : (pySplitlines (pyStripL v)).tail = [] →
      findMs ((pySplitlines (pyStripL v)).headD []) ≠ [] →
      stripLabels ((pySplitlines (pyStripL v)).headD [])
        = ((pySplitlines (pyStripL v)).headD []).take
            (((findMs ((pySplitlines (pyStripL v)).headD [])).headD (0, 0)).1)) :
    fragName (claimStrip (pyStripL v)) = fragName v
    ∧ fragName v
      = some (pyStripL (stripLabels ((pySplitlines (pyStripL v)).headD []))) := by
  have hps : pySplitlines (pyStripL v) = splitNL (pyStripL v) := by
    rw [pySplitlines, if_neg hne]
  obtain ⟨first, rest, hsplit⟩ : ∃ f r, splitNL (pyStripL v) = f :: r := by
    cases h : splitNL (pyStripL v) with
    | nil => exact absurd h (splitNL_ne_nil _)
    | cons f r => exact ⟨f, r, rfl⟩
  have hhead : (pySplitlines (pyStripL v)).headD [] = first := by
    rw [hps, hsplit]
    rfl
  have htail : (pySplitlines (pyStripL v)).tail = rest := by
    rw [hps, hsplit]
    rfl
  rw [hhead] at hbr hnm
  have hfirst_mem : first ∈ splitNL (pyStripL v) := by rw [hsplit]; simp
  have hfirst_nl : '\n' ∉ first := mem_splitNL_no_newline _ first hfirst_mem
  have hA_nl : '\n' ∉ stripLabels first :=
    fun h0 => hfirst_nl (stripLabels_subset first h0)
  have hN_def : pyStripL (stripLabels first) = pyStripL (stripLabels first) := rfl
  have hTL_ne : trimLeft (stripLabels first) ≠ [] :=
    pyStripL_trimLeft_ne_nil _ hnm
  -- Part A: the original parse yields N
  have hnameA : nameOf (pyStripL v)
      = pyStripL (stripLabels first) := by
    have hlines : pySplitlines (pyStripL v) = first :: rest := by rw [hps, hsplit]
    simp only [nameOf, hlines]
    cases rest with
    | nil =>
      cases hms : findMs first with
      | nil =>
        simp only
        rw [if_neg hnm]
      | cons m ms2 =>
        simp only
        have hs := hsingle (by rw [htail]) (by rw [hhead, hms]; simp)
        rw [hhead, hms] at hs
        simp only [List.headD_cons] at hs
        rw [← hs, if_neg hnm]
    | cons r0 rest2 =>
      simp only
      rw [if_neg hnm]
  have hfragA : fragName v = some (pyStripL (stripLabels first)) := by
    rw [fragName]
    simp only [if_neg hne]
    rw [hnameA]
  -- Part B: the stripped re-parse yields N as well
  have hfilter : (pyStripL v).filter (fun c => !(c = STX ∨ c = ETX)) = pyStripL v := by
    apply List.filter_eq_self.mpr
    intro c hc
    have h1 : ¬ (c = STX) := fun h0 => hmk.1 (h0 ▸ hc)
    have h2 : ¬ (c = ETX) := fun h0 => hmk.2 (h0 ▸ hc)
    simp [h1, h2]
  have hCS : claimStrip (pyStripL v)
      = joinNL ((first :: rest).map stripLabels) := by
    rw [claimStrip, hfilter, hps, hsplit]
  have hname_of_N : nameOf (pyStripL (stripLabels first))
      = pyStripL (stripLabels first) := by
    have h1 := nameOf_single (pyStripL (stripLabels first)) hnm
      (fun h0 => hA_nl (pyStripL_subset _ h0))
      (fun h0 => hbr (pyStripL_subset _ h0))
      (by rw [pyStripL_idem]; exact hnm)
    rw [pyStripL_idem] at h1
    exact h1
  have hfragB : fragName (claimStrip (pyStripL v))
      = some (pyStripL (stripLabels first)) := by
    cases rest with
    | nil =>
      rw [hCS]
      simp only [List.map_cons, List.map_nil, joinNL_single]
      simp only [fragName]
      rw [if_neg hnm, hname_of_N]
    | cons r0 rest2 =>
      rw [hCS]
      simp only [List.map_cons]
      rw [joinNL_cons_cons]
      set B := joinNL (stripLabels r0 :: rest2.map stripLabels) with hB_def
      have hTLA : trimLeft (stripLabels first ++ '\n' :: B)
          = trimLeft (stripLabels first) ++ '\n' :: B :=
        trimLeft_append_of_ne_nil _ _ hTL_ne
      by_cases hB : trimRight B = []
      · have hallws : ∀ c ∈ '\n' :: B, isWS c = true := by
          intro c hc
          rcases List.mem_cons.1 hc with hc | hc
          · subst hc; decide
          · exact (trimRight_eq_nil_iff B).1 hB c hc
        have hstrip : pyStripL (stripLabels first ++ '\n' :: B)
            = pyStripL (stripLabels first) := by
          rw [pyStripL, hTLA, trimRight_append_allws _ _ hallws]
          rfl
        rw [fragName]
        simp only [hstrip]
        rw [if_neg hnm, hname_of_N]
      · have hcons : trimRight ('\n' :: B) = '\n' :: trimRight B := by
          have := trimRight_append_of_ne_nil ['\n'] B hB
          simpa using this
        have hcons_ne : trimRight ('\n' :: B) ≠ [] := by
          rw [hcons]
          simp
        have hstrip : pyStripL (stripLabels first ++ '\n' :: B)
            = trimLeft (stripLabels first) ++ '\n' :: trimRight B := by
          rw [pyStripL, hTLA, trimRight_append_of_ne_nil _ _ hcons_ne, hcons]
        have hrne : trimLeft (stripLabels first) ++ '\n' :: trimRight B ≠ [] := by
          simp
        rw [fragName]
        simp only [hstrip]
        rw [if_neg hrne]
        have hTA_nl : '\n' ∉ trimLeft (stripLabels first) :=
          fun h0 => hA_nl (trimLeft_subset _ h0)
        have hTA_br : '[' ∉ trimLeft (stripLabels first) :=
          fun h0 => hbr (trimLeft_subset _ h0)
        have hTA_ps : pyStripL (trimLeft (stripLabels first)) ≠ [] := by
          rw [pyStripL, trimLeft_idem]
          exact hnm
        rw [nameOf_multi _ _ hTA_nl hTA_br hTA_ps]
        rw [pyStripL, trimLeft_idem]
        rfl
  rw [hhead]
  exact ⟨by rw [hfragB, hfragA], hfragA⟩

/-- C9 counterexample: a single-line cell with text after the label.
The original parse cuts the name at the first label match ("Jane"), but
label-stripping keeps the trailing text, so the re-parse yields
"Jane rest": the round-trip does not preserve the name. -/
theorem C9_counterexample :
    fragName "Jane [iafd] rest".toList = some "Jane".toList
    ∧ fragName (claimStrip (pyStripL "Jane [iafd] rest".toList))
      = some "Jane rest".toList
    ∧ ("Jane".toList : List Char) ≠ "Jane rest".toList := by
  refine ⟨rfl, rfl, by decide⟩

def c9WitnessValue : List Char := "Jane [iafd]\nX".toList

theorem C9_witness :
    fragName (claimStrip (pyStripL c9WitnessValue)) = fragName c9WitnessValue
    ∧ fragName c9WitnessValue
      = some (pyStripL (stripLabels ((pySplitlines (pyStripL c9WitnessValue)).headD []))) :=
  C9_roundtrip c9WitnessValue (by decide) (by decide) (by decide) (by decide)
    (fun h _ => absurd h (by decide))

end StashBacklog
